import Mathlib

/-!
Shallow embedding of the LaunchDarkly policy-governance tooling:
`policy_linter/policy_linter.py` (pattern matching, validation, patch
engine), `launchdarkly_policy_similarity/policy_validator.py`
(catalog-membership validation) and `team_manager/team_manager.py`
(template pattern synthesis, attribute extraction, team patch
composition).

Modelling conventions: Python strings are `String`/`List Char`; absent
optional dictionary fields are `[]` (the source reads them with
`.get(field, [])`); Python's in-place `list.sort()` is modelled by
returning the sorted list and threading the updated state; functions
that raise exceptions return `Except String`.
-/

namespace LDKit

/-- Code-point lexicographic comparison, as Python compares `str` values. -/
def lexLe : List Char → List Char → Bool
  | [], _ => true
  | _ :: _, [] => false
  | a :: as, b :: bs =>
    if a.toNat < b.toNat then true
    else if a.toNat = b.toNat then lexLe as bs
    else false

/-- Insertion step for `pySort`. -/
def insSorted (a : String) : List String → List String
  | [] => [a]
  | b :: bs => if lexLe a.toList b.toList then a :: b :: bs else b :: insSorted a bs

/-- Result of Python's `list.sort()` / `sorted()` on strings: ascending
code-point lexicographic order.  String order is total, so this insertion
sort returns the same list as the source's sort. -/
def pySort : List String → List String
  | [] => []
  | a :: as => insSorted a (pySort as)

/-! ### ResourcePatternMatcher (`PolicyLinter.normalize_pattern`,
`pattern_to_regex`, `does_pattern_match`) -/

/-- Characters after the first `}` of the list, or `none` when no `}`
occurs; this is how the regexes `\$\x7b[^}]*\x7d` and `;\x7b[^}]*\x7d`
locate the closing brace of a token. -/
def afterBrace : List Char → Option (List Char)
  | [] => none
  | c :: cs => if c = '}' then some cs else afterBrace cs

/-- Fuel-driven body of the substitution replacing every `$\x7b...\x7d`
token with `*` (first step of `normalize_pattern`).  The fuel bounds the
number of steps; `stripAttrs` supplies `s.length`, which is sufficient
because every step consumes at least one character. -/
def stripAttrsF : Nat → List Char → List Char
  | 0, s => s
  | _ + 1, [] => []
  | f + 1, '$' :: '{' :: rest =>
    match afterBrace rest with
    | some rest' => '*' :: stripAttrsF f rest'
    | none => '$' :: stripAttrsF f ( '{' :: rest)
  | f + 1, c :: rest => c :: stripAttrsF f rest

def stripAttrs (s : List Char) : List Char := stripAttrsF s.length s

/-- Fuel-driven body of the substitution deleting every `;\x7b...\x7d`
tag qualifier (second step of `normalize_pattern`). -/
def stripTagsF : Nat → List Char → List Char
  | 0, s => s
  | _ + 1, [] => []
  | f + 1, ';' :: '{' :: rest =>
    match afterBrace rest with
    | some rest' => stripTagsF f rest'
    | none => ';' :: stripTagsF f ( '{' :: rest)
  | f + 1, c :: rest => c :: stripTagsF f rest

def stripTags (s : List Char) : List Char := stripTagsF s.length s

/-- `PolicyLinter.normalize_pattern`: replace attribute tokens with `*`,
then drop tag qualifiers. -/
def normalize_pattern (s : String) : List Char := stripTags (stripAttrs s.toList)

/-- Token of the compiled pattern produced by `pattern_to_regex`: after
normalization and `re.escape`, every character is literal except `*`,
which becomes the segment-bounded wildcard `[^:]*`. -/
inductive LTok where
  | lit : Char → LTok
  | wild : LTok
deriving DecidableEq, Repr

/-- Compiled token list of `pattern_to_regex(pattern)`. -/
def patToks (s : String) : List LTok :=
  (normalize_pattern s).map (fun c => if c = '*' then LTok.wild else LTok.lit c)

/-- Longest colon-free front run of `s`: the most characters the wildcard
`[^:]*` can consume. -/
def maxRun (s : List Char) : Nat := (s.takeWhile (fun c => c ≠ ':')).length

/-- Anchored matching of a compiled pattern, with `LTok.wild` matching any
run of non-colon characters.  Match success under this existential
backtracking agrees with the source's regex engine. -/
def tokMatch : List LTok → List Char → Bool
  | [], s => s.isEmpty
  | LTok.lit _ :: _, [] => false
  | LTok.lit c :: ts, c' :: s => c = c' && tokMatch ts s
  | LTok.wild :: ts, s => (List.range (maxRun s + 1)).any (fun k => tokMatch ts (s.drop k))

/-- `PolicyLinter.does_pattern_match`: compile the pattern, normalize the
candidate resource, and test the anchored regex. -/
def does_pattern_match (pat resource : String) : Bool :=
  tokMatch (patToks pat) (normalize_pattern resource)

/-! ### Data model -/

/-- Policy statement as read by the tools; absent list fields are `[]`. -/
structure Stmt where
  resources : List String := []
  notResources : List String := []
  actions : List String := []
  notActions : List String := []
  effect : String := ""
deriving DecidableEq, Repr

/-- Python `statement.get('resources', []) or statement.get('notResources', [])`. -/
def Stmt.getResources (s : Stmt) : List String :=
  if s.resources ≠ [] then s.resources else s.notResources

/-- Python `statement.get('actions', []) or statement.get('notActions', [])`. -/
def Stmt.getActions (s : Stmt) : List String :=
  if s.actions ≠ [] then s.actions else s.notActions

/-- Custom role: a key owning a policy (a list of statements). -/
structure Role where
  key : String
  policy : List Stmt := []
deriving DecidableEq, Repr

/-- The linter's `resource_actions['resources']` table: insertion-ordered
mapping from resource pattern to the list of valid action verbs. -/
abbrev Catalog := List (String × List String)

/-! ### PolicyValidator (`PolicyLinter.get_invalid_actions`) -/

/-- Index of the first catalog entry whose pattern matches the resource;
`get_matching_resource_actions` returns that entry's action list (and
`None` when nothing matches). -/
def matchIdx (cat : Catalog) (resource : String) : Option Nat :=
  cat.findIdx? (fun pr => does_pattern_match pr.fst resource)

/-- Entry appended to a role's invalid-statement list: either the original
statement object (unknown resource type) or a fresh record with the
statement's resources, its invalid actions and its effect. -/
inductive InvalidEntry where
  | wholeStmt : Stmt → InvalidEntry
  | found : List String → List String → String → InvalidEntry
deriving DecidableEq, Repr

/-- Action loop of `get_invalid_actions`: walk the (sorted) action list,
skip `*`, and keep every action missing from the matched verb list. -/
def collectInvalid (verbs : List String) : List String → List String
  | [] => []
  | a :: as =>
    if a = "*" then collectInvalid verbs as
    else if a ∈ verbs then collectInvalid verbs as
    else a :: collectInvalid verbs as

/-- One iteration of the statement loop in `PolicyLinter.get_invalid_actions`.
The source sorts the matched catalog verb list and the statement's own
action list in place, so the updated catalog and statement are returned
alongside the report entry (if any). -/
def lintStatement (cat : Catalog) (s : Stmt) : Catalog × Stmt × Option InvalidEntry :=
  let resources := s.getResources
  if resources = [] then (cat, s, none)
  else
    match matchIdx cat (resources.headD "") with
    | none => (cat, s, some (.wholeStmt s))
    | some i =>
      let entry := cat.getD i ("", [])
      let verbs := pySort entry.snd
      let cat' := cat.set i (entry.fst, verbs)
      let acts := pySort s.getActions
      let s' := if s.actions ≠ [] then { s with actions := acts }
        else if s.notActions ≠ [] then { s with notActions := acts }
        else s
      let inv := collectInvalid verbs acts
      (cat', s', if inv ≠ [] then some (.found resources inv s.effect) else none)

/-- Statement loop of `get_invalid_actions` over one role's policy,
threading the in-place catalog and statement mutations. -/
def lintPolicy (cat : Catalog) : List Stmt → Catalog × List Stmt × List InvalidEntry
  | [] => (cat, [], [])
  | s :: ss =>
    let r1 := lintStatement cat s
    let r2 := lintPolicy r1.fst ss
    (r2.fst, r1.snd.fst :: r2.snd.fst,
      match r1.snd.snd with
      | some e => e :: r2.snd.snd
      | none => r2.snd.snd)

/-- Role loop of `get_invalid_actions`: roles with a non-empty
invalid-statement list are keyed into the report. -/
def lintRolesLoop (cat : Catalog) : List Role →
    Catalog × List Role × List (String × List InvalidEntry)
  | [] => (cat, [], [])
  | r :: rs =>
    let r1 := lintPolicy cat r.policy
    let r2 := lintRolesLoop r1.fst rs
    (r2.fst, { r with policy := r1.snd.fst } :: r2.snd.fst,
      if r1.snd.snd ≠ [] then (r.key, r1.snd.snd) :: r2.snd.snd else r2.snd.snd)

/-- `PolicyLinter.get_invalid_actions`: raises `ValueError("Missing
policies")` on an empty role list, else returns the per-role report
together with the final state of the catalog and roles (both of which the
source mutates by sorting lists in place). -/
def get_invalid_actions (roles : List Role) (cat : Catalog) :
    Except String (Catalog × List Role × List (String × List InvalidEntry)) :=
  if roles = [] then .error "Missing policies" else .ok (lintRolesLoop cat roles)


/-! ### PatchEngine (`PolicyLinter.fix_invalid_policies`,
`generate_patches`, `test_patch`, `test_reverse_patch`) -/

/-- Policy document as persisted after `remove_policy_hash`: the role key
and its statements. -/
structure PolicyDoc where
  key : String
  policy : List Stmt := []
deriving DecidableEq, Repr

/-- Policy entry of `all-policies.json`: the exporter runs
`set_policy_hash`, so each document carries a per-statement resource-hash
list parallel to its statements. -/
structure HashedPolicy where
  key : String
  policy : List Stmt := []
  hash : List String := []
deriving DecidableEq, Repr

/-- Invalid-statement record of `invalid_actions.json` as consumed by
`fix_invalid_policies`: the offending statement's resources and the
actions to strip. -/
structure InvalidRec where
  resources : List String := []
  notResources : List String := []
  actions : List String := []
deriving DecidableEq, Repr

/-- `PolicyLinter.create_resource_hash`: raise on a statement without
resources, else digest the comma-joined sorted resource list.  The md5
digest is modelled from the spec by its preimage string (the spec's
collision concern is statements sharing an identical resource list, and
identical lists give identical joined strings). -/
def create_resource_hash (resources notResources : List String) : Except String String :=
  let rs := if resources ≠ [] then resources else notResources
  if rs = [] then .error "Missing resources in statement"
  else .ok (String.intercalate ", " (pySort rs))

/-- `PolicyLinter.set_policy_hash` as run by the exporter: one resource
hash per statement, in statement order. -/
def set_policy_hash (r : Role) : Except String HashedPolicy := do
  let hs ← r.policy.mapM (fun s => create_resource_hash s.resources s.notResources)
  pure ⟨r.key, r.policy, hs⟩

/-- Python's `list.index(x)`: position of the first occurrence, `None`
here standing for the `ValueError` the source would raise. -/
def pyIndex (x : String) : List String → Option Nat
  | [] => none
  | y :: ys => if y = x then some 0 else (pyIndex x ys).map (fun n => n + 1)

/-- Index of the first element satisfying `p` (`_get_policy_index`). -/
def pyFindIdx {α : Type} (p : α → Bool) : List α → Option Nat
  | [] => none
  | x :: xs => if p x then some 0 else (pyFindIdx p xs).map (fun n => n + 1)

/-- Python's `list.remove(x)`: drop the first element equal to `x`,
raising `ValueError` when none exists. -/
def pyRemove (x : Stmt) : List Stmt → Except String (List Stmt)
  | [] => .error "list.remove(x): x not in list"
  | s :: ss =>
    if s = x then .ok ss
    else do
      let ss' ← pyRemove x ss
      pure (s :: ss')

/-- One iteration of the invalid-statement loop of `fix_invalid_policies`:
locate the statement by resource hash (first hash-list position,
`list.index`), strip the record's invalid actions from that statement's
action list, and queue the statement for removal when its action list
became empty. -/
def fixApplyRec (mp : List Stmt) (hashes : List String) (toRemove : List Stmt)
    (irec : InvalidRec) : Except String (List Stmt × List Stmt) :=
  match create_resource_hash irec.resources irec.notResources with
  | .error e => .error e
  | .ok h =>
    match pyIndex h hashes with
    | none => .error "ValueError: hash is not in list"
    | some i =>
      match mp[i]? with
      | none => .error "IndexError: policy statement index out of range"
      | some st =>
        let validActs := st.actions.filter (fun a => a ∉ irec.actions)
        let st' := { st with actions := validActs }
        .ok (mp.set i st', if validActs = [] then toRemove ++ [st'] else toRemove)

/-- Statement-stripping phase of `fix_invalid_policies` for one policy:
apply every invalid record, then remove the statements whose action lists
became empty. -/
def stripPolicy (mp : List Stmt) (hashes : List String) (recs : List InvalidRec) :
    Except String (List Stmt) := do
  let acc ← recs.foldlM (fun acc irec => fixApplyRec acc.fst hashes acc.snd irec)
    (mp, ([] : List Stmt))
  acc.snd.foldlM (fun cur st => pyRemove st cur) acc.fst

/-- Structural patch operation.  Modelled from the spec: the source
delegates diffing to the external `jsonpatch` library, which the spec
describes as "an ordered list of add/remove/replace operations
transforming one document into another", addressed by a path into the
policy's statement arrays. -/
inductive PatchOp where
  | setKey : String → PatchOp
  | addStmt : Nat → Stmt → PatchOp
  | removeStmt : Nat → PatchOp
  | replaceStmt : Nat → Stmt → PatchOp
deriving DecidableEq, Repr

/-- Add operations appending each statement of the list at successive
indices (tail case of the diff). -/
def addStmtsFrom (i : Nat) : List Stmt → List PatchOp
  | [] => []
  | y :: ys => PatchOp.addStmt i y :: addStmtsFrom (i + 1) ys

/-- Ordered statement-array diff (`jsonpatch.make_patch`, modelled from
the spec): walk both lists in parallel emitting replace operations, then
remove extra old statements or add extra new ones. -/
def diffStmts (i : Nat) : List Stmt → List Stmt → List PatchOp
  | [], ys => addStmtsFrom i ys
  | _ :: xs, [] => PatchOp.removeStmt i :: diffStmts i xs []
  | x :: xs, y :: ys =>
    if x = y then diffStmts (i + 1) xs ys
    else PatchOp.replaceStmt i y :: diffStmts (i + 1) xs ys

/-- Document diff: a key replacement when the keys differ, then the
statement-array diff. -/
def make_patch (a b : PolicyDoc) : List PatchOp :=
  (if a.key = b.key then [] else [PatchOp.setKey b.key]) ++ diffStmts 0 a.policy b.policy

/-- Interpretation of one structural patch operation. -/
def applyOp (d : PolicyDoc) : PatchOp → PolicyDoc
  | PatchOp.setKey k => { d with key := k }
  | PatchOp.addStmt i s => { d with policy := d.policy.insertIdx i s }
  | PatchOp.removeStmt i => { d with policy := d.policy.eraseIdx i }
  | PatchOp.replaceStmt i s => { d with policy := d.policy.set i s }

/-- `jsonpatch.apply_patch` (modelled from the spec): apply the operations
in order. -/
def apply_patch (d : PolicyDoc) (ops : List PatchOp) : PolicyDoc := ops.foldl applyOp d

/-- The three artifacts persisted per fixed role: the forward patch, the
post-patch snapshot (`.patched` file) and the reverse patch. -/
structure PatchArtifacts where
  patch : List PatchOp
  patched : PolicyDoc
  reversePatch : List PatchOp
deriving DecidableEq, Repr

/-- `PolicyLinter.generate_patches`: build the forward patch, apply it,
build the reverse patch, dry-run `test_patch` then `test_reverse_patch`
(each raising `ValueError` when the applied result diffs against the
expected document), and only past both checks hand the three artifacts
over for persisting. -/
def generate_patches (original modified : PolicyDoc) : Except String PatchArtifacts :=
  let patch := make_patch original modified
  let applied := apply_patch original patch
  let reverse := make_patch modified original
  if make_patch modified applied ≠ [] then
    .error "patched file is not the same as the modified policy"
  else if make_patch original (apply_patch modified reverse) ≠ [] then
    .error "reverse patch file is not the same as the original policy"
  else .ok ⟨patch, applied, reverse⟩

/-- Per-role outcome inside `fix_invalid_policies`: the role was skipped
(policy emptied) or fixed with persisted artifacts. -/
inductive FixOutcome where
  | skipped : FixOutcome
  | fixed : PatchArtifacts → FixOutcome
deriving DecidableEq, Repr

/-- Body of `fix_invalid_policies` for one invalid policy key: find the
policy (raising when absent), strip the invalid statements, skip when the
policy would become empty, else drop the hash fields and generate the
patch artifacts. -/
def fix_one_policy (policies : List HashedPolicy) (policy_key : String)
    (recs : List InvalidRec) : Except String FixOutcome :=
  match pyFindIdx (fun p => p.key = policy_key) policies with
  | none => .error "Policy not found in input policies"
  | some i =>
    match policies[i]? with
    | none => .error "IndexError: policy index out of range"
    | some orig =>
      match stripPolicy orig.policy orig.hash recs with
      | .error e => .error e
      | .ok stripped =>
        if stripped = [] then .ok FixOutcome.skipped
        else
          match generate_patches ⟨orig.key, orig.policy⟩ ⟨orig.key, stripped⟩ with
          | .error e => .error e
          | .ok arts => .ok (FixOutcome.fixed arts)

/-- Batch result of `fix_invalid_policies`: the skipped and fixed policy
keys (in iteration order) and the persisted artifacts per fixed key. -/
structure FixResult where
  skipped : List String := []
  fixed : List String := []
  artifacts : List (String × PatchArtifacts) := []
deriving DecidableEq, Repr

/-- `PolicyLinter.fix_invalid_policies`: process each invalid policy in
order; an exception for any policy aborts the run. -/
def fix_invalid_policies (policies : List HashedPolicy) :
    List (String × List InvalidRec) → Except String FixResult
  | [] => .ok {}
  | (k, recs) :: rest =>
    match fix_one_policy policies k recs with
    | .error e => .error e
    | .ok out =>
      match fix_invalid_policies policies rest with
      | .error e => .error e
      | .ok res =>
        match out with
        | FixOutcome.skipped => .ok { res with skipped := k :: res.skipped }
        | FixOutcome.fixed arts =>
          .ok { res with fixed := k :: res.fixed, artifacts := (k, arts) :: res.artifacts }

/-- `generate_limited_update_policy_role`: the remediation role grants
`updatePolicy` on exactly the fixed policy keys. -/
def limited_update_policy_role (fixedKeys : List String) : Stmt :=
  { resources := fixedKeys, actions := ["updatePolicy"], effect := "allow" }

/-! ### TemplatePatternSynthesizer and AttributeValueExtractor
(`RoleAttributeExtractor` in `team_manager.py`) -/

/-- Token of a compiled extraction pattern
(`discover_attribute_patterns`).  The source's escape loop walks
`['.', '^', '$', '+', '?', '|', '\\', '(', ')', '[', ']', '\x7b', '\x7d']`
in that order, replacing each character by its backslashed form; because
`\\` is processed after `.`, `^`, `$`, `+`, `?` and `|`, the backslashes
introduced for those six are doubled again and they stay regex
metacharacters behind a literal backslash: `.` compiles to a literal
backslash followed by any character, `^` to a literal backslash followed
by a start assertion, `$` to a literal backslash followed by an end
assertion, `+` to one-or-more literal backslashes, `?` to at-most-one
literal backslash, and `|` to a literal backslash ending the current
alternation branch.  Only `\\` itself and the characters escaped after
it — `(`, `)`, `[`, `]`, `\x7b`, `\x7d` — and all never-escaped
characters become self-matching literals. -/
inductive RTok where
  | lit : Char → RTok
  | cap : RTok
  | seg : RTok
  | star : RTok
  | dot : RTok
  | startA : RTok
  | endA : RTok
  | bslashPlus : RTok
  | bslashOpt : RTok
deriving DecidableEq, Repr

/-- Compiled pattern: the list of top-level alternation branches produced
by double-escaped `|` characters (a pattern without `|` is one branch). -/
abbrev RePat := List (List RTok)

/-- Longest newline-free front run of `s` (what `.`-based constructs can
consume: `.` does not match a newline). -/
def maxNlRun (s : List Char) : Nat := (s.takeWhile (fun c => c ≠ '\n')).length

/-- Candidate split sizes in the order a greedy quantifier tries them:
`n, n-1, ..., 0`. -/
def descRange (n : Nat) : List Nat := (List.range (n + 1)).reverse

/-- Greedy matching of one alternation branch against a resource.  The
Bool argument records whether the current position is the start of the
string (for the `^` assertion; zero-width tokens and a zero-length `.*`
preserve it).  A branch that exhausts its tokens succeeds as a prefix
match — `re.match` does not require consuming the whole string; only an
explicit `$` token anchors the end (modelled as end-of-string, resources
being newline-free).  Result `none`: the branch fails; `some none`: the
branch matches and contains no capture group; `some (some v)`: the
branch matches with its first (leftmost) capture group bound to `v`.
Backtracking is greedy, longest split first, as in the `re` engine. -/
def brMatch : List RTok → List Char → Bool → Option (Option (List Char))
  | [], _, _ => some none
  | RTok.lit c :: ts, s, _ =>
    match s with
    | [] => none
    | c' :: s' => if c = c' then brMatch ts s' false else none
  | RTok.dot :: ts, s, _ =>
    match s with
    | [] => none
    | c' :: s' => if c' = '\n' then none else brMatch ts s' false
  | RTok.startA :: ts, s, b => if b then brMatch ts s b else none
  | RTok.endA :: ts, s, b => if s = [] then brMatch ts s b else none
  | RTok.cap :: ts, s, _ =>
    (descRange (maxRun s)).findSome? (fun k =>
      if k = 0 then none
      else
        match brMatch ts (s.drop k) false with
        | some _ => some (some (s.take k))
        | none => none)
  | RTok.seg :: ts, s, _ =>
    (descRange (maxRun s)).findSome? (fun k =>
      if k = 0 then none else brMatch ts (s.drop k) false)
  | RTok.star :: ts, s, b =>
    (descRange (maxNlRun s)).findSome? (fun k => brMatch ts (s.drop k) (b && k == 0))
  | RTok.bslashPlus :: ts, s, _ =>
    (descRange ((s.takeWhile (fun c => c = '\\')).length)).findSome? (fun k =>
      if k = 0 then none else brMatch ts (s.drop k) false)
  | RTok.bslashOpt :: ts, s, b =>
    match s with
    | '\\' :: s' =>
      (match brMatch ts s' false with
       | some g => some g
       | none => brMatch ts s b)
    | _ => brMatch ts s b

/-- Result of `re.match` followed by `match.group(1)` as the extractor
consumes it: no match; matched but the pattern holds no capture group at
all (the `IndexError` branch); matched but group 1 lies in a branch
other than the winning one, so `group(1)` is `None` (falsy — the
extractor breaks without recording a value); matched with group 1
bound. -/
inductive MatchRes where
  | noMatch : MatchRes
  | noGroup : MatchRes
  | groupNone : MatchRes
  | captured : List Char → MatchRes
deriving DecidableEq, Repr

/-- Does a branch contain the capture group? -/
def branchHasCap (b : List RTok) : Bool := b.any (fun t => t = RTok.cap)

/-- Branch loop of the alternation: the `re` engine tries branches left
to right at position 0 and the first matching branch wins.  Group 1 is
the first capture group of the whole pattern in syntactic order, so it
binds a value exactly when the winning branch is the first branch
containing a capture group. -/
def reMatchGo (hasCap : Bool) : Bool → List (List RTok) → List Char → MatchRes
  | _, [], _ => MatchRes.noMatch
  | capBefore, b :: bs, s =>
    match brMatch b s true with
    | some g =>
      if hasCap then
        if capBefore then MatchRes.groupNone
        else
          match g with
          | some v => MatchRes.captured v
          | none => MatchRes.groupNone
      else MatchRes.noGroup
    | none => reMatchGo hasCap (capBefore || branchHasCap b) bs s

/-- `re.match(pattern, resource)` together with `match.group(1)` for a
compiled pattern. -/
def reMatchPat (p : RePat) (s : List Char) : MatchRes :=
  reMatchGo (p.any branchHasCap) false p s

/-- Key and remainder of a placeholder body: the characters before the
first `}` (required non-empty) and those after it. -/
def keySplit (s : List Char) : Option (List Char × List Char) :=
  let key := s.takeWhile (fun c => c ≠ '}')
  if key = [] then none
  else
    match s.drop key.length with
    | '}' :: rest => some (key, rest)
    | _ => none

/-- Prepend a token to the first alternation branch. -/
def consTok (t : RTok) : RePat → RePat
  | [] => [[t]]
  | b :: bs => (t :: b) :: bs

/-- Append a token to the last alternation branch (for the trailing `$`
of the anchoring). -/
def appendLast (t : RTok) : RePat → RePat
  | [] => [[t]]
  | [b] => [b ++ [t]]
  | b :: bs => b :: appendLast t bs

/-- Compilation of one remaining (non-placeholder, non-`*`, non-`|`)
character under the source's sequential escape loop: `.`, `^`, `$`, `+`
and `?` are double-escaped into a literal backslash followed by the
still-active metacharacter (for `+` and `?` the quantifier applies to
the escaped backslash), while every other character — including `\\`,
`(`, `)`, `[`, `]`, `\x7b` and `\x7d`, which are escaped once and
correctly — compiles to a self-matching literal. -/
def escChar (c : Char) (bs : RePat) : RePat :=
  if c = '.' then consTok (RTok.lit '\\') (consTok RTok.dot bs)
  else if c = '^' then consTok (RTok.lit '\\') (consTok RTok.startA bs)
  else if c = '$' then consTok (RTok.lit '\\') (consTok RTok.endA bs)
  else if c = '+' then consTok RTok.bslashPlus bs
  else if c = '?' then consTok RTok.bslashOpt bs
  else consTok (RTok.lit c) bs

/-- Fuel-driven pattern compiler of `discover_attribute_patterns` for one
resource string and one target attribute key: the target's placeholder
compiles to the capture group, other roleAttribute placeholders to the
non-capturing segment wildcard, a literal `*` to the any-character `.*`,
a `|` (double-escaped to a backslash plus alternation bar) ends the
current alternation branch with a literal backslash, and every remaining
character compiles through `escChar`. -/
def tmTokenizeF : Nat → String → List Char → RePat
  | 0, _, s => [s.map RTok.lit]
  | _ + 1, _, [] => [[]]
  | f + 1, target, '$' :: '{' :: rest =>
    if ("roleAttribute/".toList).isPrefixOf rest then
      match keySplit (rest.drop 14) with
      | some (key, after) =>
        consTok (if key = target.toList then RTok.cap else RTok.seg) (tmTokenizeF f target after)
      | none => escChar '$' (tmTokenizeF f target ( '{' :: rest))
    else escChar '$' (tmTokenizeF f target ( '{' :: rest))
  | f + 1, target, '*' :: rest => consTok RTok.star (tmTokenizeF f target rest)
  | f + 1, target, '|' :: rest => [RTok.lit '\\'] :: tmTokenizeF f target rest
  | f + 1, target, c :: rest => escChar c (tmTokenizeF f target rest)

/-- Compiled `final_pattern` (the scan of the resource wrapped in the
anchoring `^...$`: a leading start assertion on the first branch, a
trailing end assertion on the last). -/
def tmTokenize (target : String) (resource : String) : RePat :=
  appendLast RTok.endA (consTok RTok.startA (tmTokenizeF resource.length target resource.toList))

/-- Occurrence-ordered keys of the roleAttribute placeholders in a
resource (`re.findall` with non-overlapping left-to-right scanning,
duplicates kept). -/
def findAttrKeysF : Nat → List Char → List String
  | 0, _ => []
  | _ + 1, [] => []
  | f + 1, '$' :: '{' :: rest =>
    if ("roleAttribute/".toList).isPrefixOf rest then
      match keySplit (rest.drop 14) with
      | some (key, after) => String.mk key :: findAttrKeysF f after
      | none => findAttrKeysF f ( '{' :: rest)
    else findAttrKeysF f ( '{' :: rest)
  | f + 1, _ :: rest => findAttrKeysF f rest

def findAttrKeys (resource : String) : List String :=
  findAttrKeysF resource.length resource.toList

/-- Pattern store of `discover_attribute_patterns`: insertion-ordered
association of attribute key to its pattern list, each pattern added only
when not already present for that key. -/
def addPattern (m : List (String × List RePat)) (k : String) (p : RePat) :
    List (String × List RePat) :=
  match m with
  | [] => [(k, [p])]
  | (k', ps) :: rest =>
    if k' = k then (if p ∈ ps then (k', ps) :: rest else (k', ps ++ [p]) :: rest)
    else (k', ps) :: addPattern rest k p

/-- `RoleAttributeExtractor.discover_attribute_patterns`: for every
resource in every statement's `resources` list and every roleAttribute
placeholder occurrence in it, compile and record one extraction pattern
for that occurrence's key. -/
def discover_attribute_patterns (template : List Stmt) : List (String × List RePat) :=
  template.foldl (fun m st =>
    st.resources.foldl (fun m r =>
      (findAttrKeys r).foldl (fun m k => addPattern m k (tmTokenize k r)) m) m) []

/-- First-match pattern search of the extractor for one (resource, key)
pair: a pattern that does not match, or that matches but has no capture
group at all (`IndexError`), lets the search continue; a match whose
`group(1)` is `None` stops the search without a value; a match with a
captured value stops the search with it. -/
def tryPatterns : List RePat → List Char → Option (Option (List Char))
  | [], _ => none
  | p :: ps, r =>
    match reMatchPat p r with
    | MatchRes.noMatch => tryPatterns ps r
    | MatchRes.noGroup => tryPatterns ps r
    | MatchRes.groupNone => some none
    | MatchRes.captured v => some (some v)

/-- Substring test (Python `needle in value`). -/
def hasInfix (needle : List Char) : List Char → Bool
  | [] => needle.isPrefixOf []
  | c :: rest => needle.isPrefixOf (c :: rest) || hasInfix needle rest

/-- Value filter of the extractor: keep a captured value only when it is
non-empty, not the literal wildcard, and free of unresolved placeholder
text. -/
def valueOk (v : List Char) : Bool :=
  decide (v ≠ []) && decide (v ≠ ['*']) && !hasInfix ['$', '{'] v

/-- Set insertion (Python `set.add` on an insertion-ordered model). -/
def setInsert (l : List String) (v : String) : List String :=
  if v ∈ l then l else l ++ [v]

/-- Record a captured value under its attribute key (keys are
pre-initialized, mirroring the source's per-key set initialisation). -/
def extractAddValue (vals : List (String × List String)) (k v : String) :
    List (String × List String) :=
  match vals with
  | [] => []
  | (k', vs) :: rest =>
    if k' = k then (k', setInsert vs v) :: rest else (k', vs) :: extractAddValue rest k v

/-- Attribute loop of the extractor for one resource: for each attribute
key try its patterns first-match-wins; record the captured value when
the filter accepts it, and record nothing (but stop trying patterns)
when the match produced a falsy `group(1)`. -/
def extractResource (pats : List (String × List RePat))
    (vals : List (String × List String)) (r : List Char) : List (String × List String) :=
  pats.foldl (fun vals kp =>
    match tryPatterns kp.snd r with
    | some (some v) => if valueOk v then extractAddValue vals kp.fst (String.mk v) else vals
    | some none => vals
    | none => vals) vals

/-- `RoleAttributeExtractor.extract_from_role_with_patterns`: walk every
resource of `resources` and `notResources` of every statement, extract
values per attribute key, and drop keys whose value set stayed empty. -/
def extract_from_role_with_patterns (role : List Stmt)
    (pats : List (String × List RePat)) : List (String × List String) :=
  let init := pats.map (fun kp => (kp.fst, ([] : List String)))
  let vals := role.foldl (fun vals st =>
    (st.resources ++ st.notResources).foldl (fun vals r => extractResource pats vals r.toList)
      vals) init
  vals.filter (fun kv => kv.snd ≠ [])

/-! ### TeamPatchComposer (`TeamManager._create_team_patch_file`) -/

/-- Instruction of a team patch document. -/
inductive TeamInstr where
  | addCustomRoles : List String → TeamInstr
  | addRoleAttribute : String → List String → TeamInstr
  | updateRoleAttribute : String → List String → TeamInstr
deriving DecidableEq, Repr

/-- Python `sorted(list(set(xs)))`: deduplicate, then sort. -/
def sortedDedup (xs : List String) : List String := pySort xs.eraseDups

/-- Instruction list of `TeamManager._create_team_patch_file`: an
`addCustomRoles` instruction with the deduplicated sorted template role
keys when that list is non-empty, then one roleAttribute instruction per
extracted attribute — `update` exactly when the attribute key already
exists in the team's `roleAttributes`, `add` otherwise.  Both callers
(`generate_team_patches` and its multi-template variant) always pass a
non-empty role-key list. -/
def create_team_patch_instructions (templateRoleKeys : List String)
    (teamAttrValues : List (String × List String)) (existingKeys : List String) :
    List TeamInstr :=
  (if templateRoleKeys ≠ [] then [TeamInstr.addCustomRoles (sortedDedup templateRoleKeys)]
   else [])
    ++ teamAttrValues.map (fun kv =>
      if kv.fst ∈ existingKeys then TeamInstr.updateRoleAttribute kv.fst (pySort kv.snd)
      else TeamInstr.addRoleAttribute kv.fst (pySort kv.snd))

/-! ### Similarity-package validator (`policy_validator.get_invalid_actions`) -/

/-- Flat catalog of `policy_validator.py`: resource type → valid verbs. -/
abbrev FlatCatalog := List (String × List String)

/-- Membership of an action in any resource type's verb list: the
similarity validator checks the whole catalog, never matching
resources. -/
def actionFoundIn (cat : FlatCatalog) (a : String) : Bool :=
  cat.any (fun e => a ∈ e.snd)

/-- Record an invalid action under a role key, deduplicating per role
(the source appends only when the action is not yet in the role's
list). -/
def addInvalidTo (m : List (String × List String)) (k a : String) :
    List (String × List String) :=
  match m with
  | [] => [(k, [a])]
  | (k', l) :: rest =>
    if k' = k then (if a ∈ l then (k', l) :: rest else (k', l ++ [a]) :: rest)
    else (k', l) :: addInvalidTo rest k a

/-- Action loop of the similarity validator for one statement: skip `*`,
skip actions found somewhere in the catalog, record the rest. -/
def simValidateStmt (cat : FlatCatalog) (k : String) (m : List (String × List String))
    (s : Stmt) : List (String × List String) :=
  s.getActions.foldl (fun m a =>
    if a = "*" then m
    else if actionFoundIn cat a then m
    else addInvalidTo m k a) m

/-- `policy_validator.get_invalid_actions`: per-role deduplicated list of
the actions contained in no catalog verb list. -/
def sim_get_invalid_actions (roles : List Role) (cat : FlatCatalog) :
    List (String × List String) :=
  roles.foldl (fun m r => r.policy.foldl (fun m s => simValidateStmt cat r.key m s) m) []

/-- Actions reported by one invalid-statement entry of the linter. -/
def entryActions : InvalidEntry → List String
  | InvalidEntry.wholeStmt s => s.getActions
  | InvalidEntry.found _ acts _ => acts

/-- Number of times an action is reported across a role's entries. -/
def reportCount (es : List InvalidEntry) (a : String) : Nat :=
  (es.map (fun e => (entryActions e).count a)).sum

/-- Invariant of the similarity validator's accumulator. -/
def simInv (cat : FlatCatalog) (m : List (String × List String)) : Prop :=
  ∀ k l, (k, l) ∈ m → l.Nodup ∧ "*" ∉ l ∧ ∀ a ∈ l, actionFoundIn cat a = false

/-- Value hygiene guaranteed by the extractor's filter: non-empty, not
the literal wildcard, no unresolved placeholder text. -/
def goodValue (s : String) : Prop :=
  s.toList ≠ [] ∧ s.toList ≠ ['*'] ∧ hasInfix ['$', '{'] s.toList = false

/-- Invariant of the extractor's accumulator: every recorded value
satisfies `goodValue`. -/
def extOk (m : List (String × List String)) : Prop :=
  ∀ k vs, (k, vs) ∈ m → ∀ v ∈ vs, goodValue v

/-! ### Similarity relations for the frame analysis of validation -/

/-- Relation between a statement and its post-validation state: resources,
notResources and effect unchanged; action lists permutations of the
originals (the source sorts them in place). -/
def stmtSim (s s' : Stmt) : Prop :=
  s'.resources = s.resources ∧ s'.notResources = s.notResources ∧ s'.effect = s.effect
    ∧ s'.actions.Perm s.actions ∧ s'.notActions.Perm s.notActions

/-- Relation between a catalog and its post-validation state: patterns
unchanged entrywise; verb lists permutations of the originals. -/
def catalogSim (c c' : Catalog) : Prop :=
  List.Forall₂ (fun e e' => e'.fst = e.fst ∧ e'.snd.Perm e.snd) c c'

/-- Relation between a role and its post-validation state. -/
def roleSim (r r' : Role) : Prop :=
  r'.key = r.key ∧ List.Forall₂ stmtSim r.policy r'.policy

/-! ## Theorems -/

theorem insSorted_perm (a : String) (l : List String) :
    (insSorted a l).Perm (a :: l) := by
  induction l with
  | nil => simp [insSorted]
  | cons b bs ih =>
    simp only [insSorted]
    split
    · exact List.Perm.refl _
    · exact (ih.cons b).trans (List.Perm.swap a b bs)

theorem pySort_perm (l : List String) : (pySort l).Perm l := by
  induction l with
  | nil => simp [pySort]
  | cons a as ih =>
    exact (insSorted_perm a (pySort as)).trans (ih.cons a)


theorem tokMatch_nil_eq (w : List Char) : tokMatch [] w = w.isEmpty := by
  cases w <;> rfl

theorem tokMatch_wild_iff (w : List Char) :
    tokMatch [LTok.wild] w = true ↔ ':' ∉ w := by
  have step : tokMatch [LTok.wild] w = true ↔ w.length ≤ maxRun w := by
    simp only [tokMatch, List.any_eq_true, List.mem_range]
    constructor
    · rintro ⟨k, _, hm⟩
      rw [List.isEmpty_iff, List.drop_eq_nil_iff] at hm
      omega
    · intro h
      refine ⟨maxRun w, by omega, ?_⟩
      rw [List.isEmpty_iff, List.drop_eq_nil_iff]
      exact h
  rw [step]
  unfold maxRun
  constructor
  · intro h hmem
    have heq : w.takeWhile (fun c => decide (c ≠ ':')) = w :=
      (List.takeWhile_sublist _).eq_of_length_le h
    have hx := List.takeWhile_eq_self_iff.mp heq ':' hmem
    simp at hx
  · intro h
    have heq : w.takeWhile (fun c => decide (c ≠ ':')) = w := by
      refine List.takeWhile_eq_self_iff.mpr (fun x hx => ?_)
      simp only [decide_eq_true_eq]
      exact fun he => h (he ▸ hx)
    rw [heq]

/-- C3: the matcher compiles `*` into a segment-bounded wildcard under
whole-string anchoring — a lone wildcard pattern accepts exactly the
colon-free strings and an exhausted pattern accepts only the exhausted
candidate — and concretely `proj/*:env/*` matches `proj/p1:env/e1` but
neither `proj/p1:other/e1` (wrong segment type) nor `proj/p1` (too few
segments). -/
theorem c3_wildcard_boundary :
    (∀ w : List Char, tokMatch [LTok.wild] w = true ↔ ':' ∉ w)
    ∧ (∀ w : List Char, tokMatch [] w = true ↔ w = [])
    ∧ does_pattern_match "proj/*:env/*" "proj/p1:env/e1" = true
    ∧ does_pattern_match "proj/*:env/*" "proj/p1:other/e1" = false
    ∧ does_pattern_match "proj/*:env/*" "proj/p1" = false := by
  refine ⟨tokMatch_wild_iff, ?_, by decide, by decide, by decide⟩
  intro w
  rw [tokMatch_nil_eq, List.isEmpty_iff]

theorem lintStatement_empty_res (cat : Catalog) (s : Stmt)
    (hr : s.resources = []) (hn : s.notResources = []) :
    lintStatement cat s = (cat, s, none) := by
  simp [lintStatement, Stmt.getResources, hr, hn]

theorem lintPolicy_skip_aux (s : Stmt) (hr : s.resources = []) (hn : s.notResources = [])
    (pre : List Stmt) : ∀ (cat : Catalog) (post : List Stmt),
    (lintPolicy cat (pre ++ s :: post)).snd.snd = (lintPolicy cat (pre ++ post)).snd.snd := by
  induction pre with
  | nil =>
    intro cat post
    simp [lintPolicy, lintStatement_empty_res cat s hr hn]
  | cons q pre ih =>
    intro cat post
    simp only [List.cons_append, lintPolicy, List.append_eq]
    rw [ih]

/-- C10: a statement whose `resources` and `notResources` are both absent
or empty is silently skipped by the validator: the statement loop leaves
the catalog and the statement untouched and contributes no report entry
whatever actions the statement lists, the role-level report is the same
as if the statement were not there, and validation of a non-empty role
list raises no error. -/
theorem c10_statement_without_resources_is_skipped (cat : Catalog) (s : Stmt)
    (hr : s.resources = []) (hn : s.notResources = []) :
    lintStatement cat s = (cat, s, none)
    ∧ (∀ pre post, (lintPolicy cat (pre ++ s :: post)).snd.snd
        = (lintPolicy cat (pre ++ post)).snd.snd)
    ∧ (∀ (r : Role) (rs : List Role) (c : Catalog),
        get_invalid_actions (r :: rs) c = .ok (lintRolesLoop c (r :: rs))) := by
  refine ⟨lintStatement_empty_res cat s hr hn,
    fun pre post => lintPolicy_skip_aux s hr hn pre cat post,
    fun r rs c => ?_⟩
  simp [get_invalid_actions]

/-- Witness for C10 at a concrete catalog and resource-less statement. -/
theorem c10_witness :
    lintStatement [("proj/*", ["createProject"])] ({ actions := ["deleteProject"] } : Stmt)
      = ([("proj/*", ["createProject"])], ({ actions := ["deleteProject"] } : Stmt), none) :=
  (c10_statement_without_resources_is_skipped _ _ rfl rfl).1


theorem stmtSim_refl (s : Stmt) : stmtSim s s :=
  ⟨rfl, rfl, rfl, List.Perm.refl _, List.Perm.refl _⟩

theorem stmtSim_trans {a b c : Stmt} (h1 : stmtSim a b) (h2 : stmtSim b c) : stmtSim a c :=
  ⟨h2.1.trans h1.1, h2.2.1.trans h1.2.1, h2.2.2.1.trans h1.2.2.1,
    h2.2.2.2.1.trans h1.2.2.2.1, h2.2.2.2.2.trans h1.2.2.2.2⟩

theorem catalogSim_refl (c : Catalog) : catalogSim c c :=
  List.forall₂_same.mpr (fun _ _ => ⟨rfl, List.Perm.refl _⟩)

theorem catalogSim_trans {a b c : Catalog} (h1 : catalogSim a b) (h2 : catalogSim b c) :
    catalogSim a c := by
  induction h1 generalizing c with
  | nil => cases h2; exact List.Forall₂.nil
  | cons hab _ ih =>
    cases h2 with
    | cons hbc h2' => exact List.Forall₂.cons ⟨hbc.1.trans hab.1, hbc.2.trans hab.2⟩ (ih h2')

theorem stmtsSim_trans {a b c : List Stmt} (h1 : List.Forall₂ stmtSim a b)
    (h2 : List.Forall₂ stmtSim b c) : List.Forall₂ stmtSim a c := by
  induction h1 generalizing c with
  | nil => cases h2; exact List.Forall₂.nil
  | cons hab _ ih =>
    cases h2 with
    | cons hbc h2' => exact List.Forall₂.cons (stmtSim_trans hab hbc) (ih h2')

theorem catalogSim_set_sorted (cat : Catalog) : ∀ i : Nat,
    catalogSim cat
      (cat.set i ((cat.getD i ("", [])).fst, pySort (cat.getD i ("", [])).snd)) := by
  induction cat with
  | nil => intro i; exact List.Forall₂.nil
  | cons e es ih =>
    intro i
    cases i with
    | zero =>
      simp only [List.getD_cons_zero, List.set_cons_zero]
      exact List.Forall₂.cons ⟨rfl, pySort_perm e.snd⟩ (catalogSim_refl es)
    | succ j =>
      simp only [List.getD_cons_succ, List.set_cons_succ]
      exact List.Forall₂.cons ⟨rfl, List.Perm.refl _⟩ (ih j)

theorem lintStatement_sim (cat : Catalog) (s : Stmt) :
    catalogSim cat (lintStatement cat s).fst ∧ stmtSim s (lintStatement cat s).snd.fst := by
  simp only [lintStatement]
  split
  · exact ⟨catalogSim_refl cat, stmtSim_refl s⟩
  · split
    · exact ⟨catalogSim_refl cat, stmtSim_refl s⟩
    · refine ⟨catalogSim_set_sorted cat _, ?_⟩
      split
      · next ha =>
        have hg : s.getActions = s.actions := by simp [Stmt.getActions, ha]
        exact ⟨rfl, rfl, rfl, by rw [hg]; exact pySort_perm s.actions, List.Perm.refl _⟩
      · split
        · next ha hb =>
          have hg : s.getActions = s.notActions := by
            simp only [Stmt.getActions]
            rw [if_neg ha]
          exact ⟨rfl, rfl, rfl, List.Perm.refl _, by rw [hg]; exact pySort_perm s.notActions⟩
        · exact stmtSim_refl s

theorem lintPolicy_sim (ss : List Stmt) : ∀ cat : Catalog,
    catalogSim cat (lintPolicy cat ss).fst
      ∧ List.Forall₂ stmtSim ss (lintPolicy cat ss).snd.fst := by
  induction ss with
  | nil => intro cat; exact ⟨catalogSim_refl cat, List.Forall₂.nil⟩
  | cons s ss ih =>
    intro cat
    have h1 := lintStatement_sim cat s
    have h2 := ih (lintStatement cat s).fst
    simp only [lintPolicy]
    exact ⟨catalogSim_trans h1.1 h2.1, List.Forall₂.cons h1.2 h2.2⟩

theorem lintRolesLoop_sim (roles : List Role) : ∀ cat : Catalog,
    catalogSim cat (lintRolesLoop cat roles).fst
      ∧ List.Forall₂ roleSim roles (lintRolesLoop cat roles).snd.fst := by
  induction roles with
  | nil => intro cat; exact ⟨catalogSim_refl cat, List.Forall₂.nil⟩
  | cons r rs ih =>
    intro cat
    have h1 := lintPolicy_sim r.policy cat
    have h2 := ih (lintPolicy cat r.policy).fst
    simp only [lintRolesLoop]
    exact ⟨catalogSim_trans h1.1 h2.1, List.Forall₂.cons ⟨rfl, h1.2⟩ h2.2⟩

/-- C9 counterexample: validation does not leave its inputs unchanged.
On this catalog (unsorted verb list) and single role (unsorted action
list), `get_invalid_actions` succeeds but hands back a catalog and role
list that differ structurally from the inputs: the source's in-place
`valid_actions.sort()` and `actions.sort()` mutated both. -/
theorem c9_counterexample :
    (lintRolesLoop [("proj/*", ["viewProject", "createProject"])]
        [⟨"r", [{ resources := ["proj/*"], actions := ["b", "a"], effect := "allow" }]⟩]).fst
      ≠ [("proj/*", ["viewProject", "createProject"])]
    ∧ (lintRolesLoop [("proj/*", ["viewProject", "createProject"])]
        [⟨"r", [{ resources := ["proj/*"], actions := ["b", "a"], effect := "allow" }]⟩]).snd.fst
      ≠ [⟨"r", [{ resources := ["proj/*"], actions := ["b", "a"], effect := "allow" }]⟩]
    ∧ get_invalid_actions
        [⟨"r", [{ resources := ["proj/*"], actions := ["b", "a"], effect := "allow" }]⟩]
        [("proj/*", ["viewProject", "createProject"])]
      = .ok (lintRolesLoop [("proj/*", ["viewProject", "createProject"])]
          [⟨"r", [{ resources := ["proj/*"], actions := ["b", "a"], effect := "allow" }]⟩]) :=
  ⟨by decide, by decide, rfl⟩

/-- C9 amended: a validation run preserves its inputs only up to the
in-place sorting the source performs: when `get_invalid_actions`
succeeds, every returned role keeps its key and each statement keeps its
resources, notResources and effect while its action lists are
permutations of the originals, and the catalog keeps every pattern while
each verb list is a permutation of the original. -/
theorem c9_amended_inputs_preserved_up_to_sorting (roles : List Role) (cat : Catalog)
    (out : Catalog × List Role × List (String × List InvalidEntry))
    (h : get_invalid_actions roles cat = .ok out) :
    catalogSim cat out.fst ∧ List.Forall₂ roleSim roles out.snd.fst := by
  unfold get_invalid_actions at h
  by_cases hr : roles = []
  · simp [hr] at h
  · rw [if_neg hr] at h
    cases h
    exact lintRolesLoop_sim roles cat

/-- Witness for the amended C9 at a concrete catalog and role list. -/
theorem c9_amended_witness :
    catalogSim [("proj/*", ["viewProject", "createProject"])]
      (lintRolesLoop [("proj/*", ["viewProject", "createProject"])]
        [⟨"r", [{ resources := ["proj/*"], actions := ["b", "a"], effect := "allow" }]⟩]).fst
    ∧ List.Forall₂ roleSim
      [⟨"r", [{ resources := ["proj/*"], actions := ["b", "a"], effect := "allow" }]⟩]
      (lintRolesLoop [("proj/*", ["viewProject", "createProject"])]
        [⟨"r", [{ resources := ["proj/*"], actions := ["b", "a"], effect := "allow" }]⟩]).snd.fst :=
  c9_amended_inputs_preserved_up_to_sorting _ _ _ rfl


theorem collectInvalid_mem (verbs acts : List String) (a : String) :
    a ∈ collectInvalid verbs acts ↔ a ∈ acts ∧ a ≠ "*" ∧ a ∉ verbs := by
  induction acts with
  | nil => simp [collectInvalid]
  | cons b bs ih =>
    simp only [collectInvalid]
    by_cases hb : b = "*"
    · subst hb
      rw [if_pos rfl, ih]
      simp only [List.mem_cons]
      constructor
      · rintro ⟨h1, h2, h3⟩
        exact ⟨Or.inr h1, h2, h3⟩
      · rintro ⟨h1 | h1, h2, h3⟩
        · exact absurd h1 h2
        · exact ⟨h1, h2, h3⟩
    · rw [if_neg hb]
      by_cases hv : b ∈ verbs
      · rw [if_pos hv, ih]
        simp only [List.mem_cons]
        constructor
        · rintro ⟨h1, h2, h3⟩
          exact ⟨Or.inr h1, h2, h3⟩
        · rintro ⟨h1 | h1, h2, h3⟩
          · subst h1; exact absurd hv h3
          · exact ⟨h1, h2, h3⟩
      · rw [if_neg hv]
        simp only [List.mem_cons, ih]
        constructor
        · rintro (h1 | ⟨h1, h2, h3⟩)
          · subst h1; exact ⟨Or.inl rfl, hb, hv⟩
          · exact ⟨Or.inr h1, h2, h3⟩
        · rintro ⟨h1 | h1, h2, h3⟩
          · subst h1; exact Or.inl rfl
          · exact Or.inr ⟨h1, h2, h3⟩

theorem collectInvalid_no_star (verbs acts : List String) :
    "*" ∉ collectInvalid verbs acts :=
  fun h => ((collectInvalid_mem verbs acts "*").mp h).2.1 rfl

theorem lintStatement_found_no_star (cat : Catalog) (s : Stmt) (r as : List String)
    (e : String) (h : (lintStatement cat s).snd.snd = some (InvalidEntry.found r as e)) :
    "*" ∉ as := by
  simp only [lintStatement] at h
  repeat' split at h
  all_goals simp at h
  all_goals rw [← h.2.1]
  all_goals exact collectInvalid_no_star _ _

theorem lintPolicy_found_no_star (ss : List Stmt) : ∀ (cat : Catalog) (r as : List String)
    (e : String), InvalidEntry.found r as e ∈ (lintPolicy cat ss).snd.snd → "*" ∉ as := by
  induction ss with
  | nil => intro cat r as e h; simp [lintPolicy] at h
  | cons s ss ih =>
    intro cat r as e h
    simp only [lintPolicy] at h
    revert h
    cases hx : (lintStatement cat s).snd.snd with
    | none => exact fun h => ih _ r as e h
    | some x =>
      intro h
      rcases List.mem_cons.mp h with h1 | h1
      · subst h1
        exact lintStatement_found_no_star cat s r as e hx
      · exact ih _ r as e h1

theorem lintPolicy_report_le (ss : List Stmt) : ∀ cat : Catalog,
    (lintPolicy cat ss).snd.snd.length ≤ ss.length := by
  induction ss with
  | nil => intro cat; simp [lintPolicy]
  | cons s ss ih =>
    intro cat
    simp only [lintPolicy, List.length_cons]
    cases hx : (lintStatement cat s).snd.snd with
    | none => exact Nat.le_succ_of_le (ih _)
    | some x => simpa using Nat.succ_le_succ (ih _)

theorem addInvalidTo_inv (cat : FlatCatalog) (k a : String) (ha : a ≠ "*")
    (hf : actionFoundIn cat a = false) :
    ∀ m : List (String × List String), simInv cat m → simInv cat (addInvalidTo m k a) := by
  intro m
  induction m with
  | nil =>
    intro _ k' l' hm
    simp only [addInvalidTo, List.mem_singleton, Prod.mk.injEq] at hm
    rcases hm with ⟨_, rfl⟩
    refine ⟨List.nodup_singleton a, ?_, ?_⟩
    · simp only [List.mem_singleton]
      exact fun h => ha h.symm
    · intro b hb
      rw [List.mem_singleton] at hb
      subst hb
      exact hf
  | cons e rest ih =>
    intro hm k' l' hm'
    obtain ⟨ke, le⟩ := e
    simp only [addInvalidTo] at hm'
    by_cases hk : ke = k
    · rw [if_pos hk] at hm'
      by_cases hal : a ∈ le
      · rw [if_pos hal] at hm'
        exact hm k' l' hm'
      · rw [if_neg hal] at hm'
        rcases List.mem_cons.mp hm' with h1 | h1
        · rw [Prod.mk.injEq] at h1
          rcases h1 with ⟨_, rfl⟩
          have hold := hm ke le (List.mem_cons_self _ _)
          refine ⟨?_, ?_, ?_⟩
          · rw [List.nodup_append]
            exact ⟨hold.1, List.nodup_singleton a, by
              intro x hx hx'
              rw [List.mem_singleton] at hx'
              subst hx'
              exact hal hx⟩
          · rw [List.mem_append, List.mem_singleton]
            rintro (h | h)
            · exact hold.2.1 h
            · exact ha h.symm
          · intro b hb
            rcases List.mem_append.mp hb with h | h
            · exact hold.2.2 b h
            · rw [List.mem_singleton] at h
              subst h
              exact hf
        · exact hm k' l' (List.mem_cons_of_mem _ h1)
    · rw [if_neg hk] at hm'
      rcases List.mem_cons.mp hm' with h1 | h1
      · exact hm k' l' (h1 ▸ List.mem_cons_self _ _)
      · exact ih (fun k2 l2 h2 => hm k2 l2 (List.mem_cons_of_mem _ h2)) k' l' h1

theorem actsFold_inv (cat : FlatCatalog) (k : String) (acts : List String) :
    ∀ m, simInv cat m →
      simInv cat (acts.foldl (fun m a =>
        if a = "*" then m
        else if actionFoundIn cat a then m
        else addInvalidTo m k a) m) := by
  induction acts with
  | nil => intro m hm; exact hm
  | cons a as ih =>
    intro m hm
    rw [List.foldl_cons]
    by_cases h1 : a = "*"
    · rw [if_pos h1]
      exact ih m hm
    · rw [if_neg h1]
      by_cases h2 : actionFoundIn cat a = true
      · rw [if_pos h2]
        exact ih m hm
      · rw [if_neg h2]
        exact ih _ (addInvalidTo_inv cat k a h1 (Bool.not_eq_true _ ▸ h2) m hm)

theorem simValidateStmt_inv (cat : FlatCatalog) (k : String) (s : Stmt) (m : _)
    (hm : simInv cat m) : simInv cat (simValidateStmt cat k m s) :=
  actsFold_inv cat k s.getActions m hm

theorem stmtsFold_inv (cat : FlatCatalog) (k : String) (ss : List Stmt) :
    ∀ m, simInv cat m → simInv cat (ss.foldl (fun m s => simValidateStmt cat k m s) m) := by
  induction ss with
  | nil => intro m hm; exact hm
  | cons s ss ih =>
    intro m hm
    rw [List.foldl_cons]
    exact ih _ (simValidateStmt_inv cat k s m hm)

theorem sim_get_invalid_actions_inv (roles : List Role) (cat : FlatCatalog) :
    simInv cat (sim_get_invalid_actions roles cat) := by
  unfold sim_get_invalid_actions
  have base : simInv cat [] := fun k l h => absurd h (List.not_mem_nil _)
  revert base
  generalize ([] : List (String × List String)) = m0
  intro base
  induction roles generalizing m0 with
  | nil => exact base
  | cons r rs ih =>
    rw [List.foldl_cons]
    exact ih _ (stmtsFold_inv cat r.key r.policy m0 base)

/-- C5 counterexample: with a catalog allowing only `viewProject` and a
role holding two statements over the identical resource list
`["proj/a"]` (hence the identical resource hash), the linter's validation
reports the absent action `deleteProject` twice for the role — once per
offending statement — not exactly once. -/
theorem c5_counterexample :
    reportCount (lintPolicy [("proj/*", ["viewProject"])]
        [{ resources := ["proj/a"], actions := ["deleteProject"], effect := "allow" },
         { resources := ["proj/a"], actions := ["deleteProject"], effect := "deny" }]).snd.snd
      "deleteProject" = 2
    ∧ create_resource_hash ["proj/a"] [] = .ok "proj/a" :=
  ⟨by decide, rfl⟩

/-- C5 amended: the linter reports an action absent from the matched
catalog entry's verb list once per offending statement (an action shared
by several statements with the same resource list appears once in each
statement's entry, as `c5_counterexample` shows), never reports `*`, and
produces at most one entry per statement; the similarity-package
validator deduplicates per role — each reported action list is
duplicate-free, `*`-free, and contains only actions found in no catalog
verb list. -/
theorem c5_amended_invalid_action_reporting :
    (∀ verbs acts a, a ∈ collectInvalid verbs acts ↔ a ∈ acts ∧ a ≠ "*" ∧ a ∉ verbs)
    ∧ (∀ (cat : Catalog) (ss : List Stmt) (r as : List String) (e : String),
        InvalidEntry.found r as e ∈ (lintPolicy cat ss).snd.snd → "*" ∉ as)
    ∧ (∀ (cat : Catalog) (ss : List Stmt), (lintPolicy cat ss).snd.snd.length ≤ ss.length)
    ∧ (∀ (roles : List Role) (cat : FlatCatalog) (k : String) (l : List String),
        (k, l) ∈ sim_get_invalid_actions roles cat →
          l.Nodup ∧ "*" ∉ l ∧ ∀ a ∈ l, actionFoundIn cat a = false) :=
  ⟨collectInvalid_mem,
    fun cat ss r as e h => lintPolicy_found_no_star ss cat r as e h,
    fun cat ss => lintPolicy_report_le ss cat,
    fun roles cat k l h => sim_get_invalid_actions_inv roles cat k l h⟩

/-- Witness for the amended C5: the similarity validator's report for a
concrete role and catalog is duplicate-free, `*`-free and contains only
catalog-absent actions. -/
theorem c5_amended_witness :
    (["deleteProject"] : List String).Nodup
    ∧ "*" ∉ (["deleteProject"] : List String)
    ∧ ∀ a ∈ (["deleteProject"] : List String),
        actionFoundIn [("proj/*", ["viewProject"])] a = false :=
  c5_amended_invalid_action_reporting.2.2.2
    [⟨"r", [{ resources := ["proj/a"], actions := ["deleteProject"], effect := "allow" }]⟩]
    [("proj/*", ["viewProject"])] "r" ["deleteProject"] (by decide)


theorem set_at_length (pre : List Stmt) (x y : Stmt) : ∀ t : List Stmt,
    (pre ++ x :: t).set pre.length y = pre ++ y :: t := by
  induction pre with
  | nil => intro t; rfl
  | cons p ps ih =>
    intro t
    simp only [List.cons_append, List.length_cons, List.set_cons_succ]
    rw [ih]

theorem eraseIdx_at_length (pre : List Stmt) (x : Stmt) : ∀ t : List Stmt,
    (pre ++ x :: t).eraseIdx pre.length = pre ++ t := by
  induction pre with
  | nil => intro t; rfl
  | cons p ps ih =>
    intro t
    simp only [List.cons_append, List.length_cons, List.eraseIdx_cons_succ]
    rw [ih]

theorem insertIdx_at_length (pre : List Stmt) (y : Stmt) : ∀ t : List Stmt,
    (pre ++ t).insertIdx pre.length y = pre ++ y :: t := by
  induction pre with
  | nil => intro t; rfl
  | cons p ps ih =>
    intro t
    simp only [List.cons_append, List.length_cons, List.insertIdx_succ_cons]
    rw [ih]

theorem diff_apply_nil_right (xs : List Stmt) : ∀ (pre : List Stmt) (k : String),
    apply_patch ⟨k, pre ++ xs⟩ (diffStmts pre.length xs []) = ⟨k, pre⟩ := by
  induction xs with
  | nil => intro pre k; simp [diffStmts, addStmtsFrom, apply_patch]
  | cons x xs ih =>
    intro pre k
    simp only [diffStmts, apply_patch, List.foldl_cons]
    have hstep : applyOp ⟨k, pre ++ x :: xs⟩ (PatchOp.removeStmt pre.length)
        = (⟨k, pre ++ xs⟩ : PolicyDoc) := by
      simp only [applyOp]
      rw [eraseIdx_at_length]
    rw [hstep]
    exact ih pre k

theorem diff_apply_nil_left (ys : List Stmt) : ∀ (pre : List Stmt) (k : String),
    apply_patch ⟨k, pre⟩ (addStmtsFrom pre.length ys) = ⟨k, pre ++ ys⟩ := by
  induction ys with
  | nil => intro pre k; simp [addStmtsFrom, apply_patch]
  | cons y ys ih =>
    intro pre k
    simp only [addStmtsFrom, apply_patch, List.foldl_cons]
    have hstep : applyOp ⟨k, pre⟩ (PatchOp.addStmt pre.length y)
        = (⟨k, pre ++ [y]⟩ : PolicyDoc) := by
      simp only [applyOp]
      have := insertIdx_at_length pre y []
      rw [List.append_nil] at this
      rw [this]
    rw [hstep]
    have := ih (pre ++ [y]) k
    rw [List.length_append, List.length_singleton, List.append_assoc] at this
    simpa using this

theorem diff_apply (xs : List Stmt) : ∀ (ys pre : List Stmt) (k : String),
    apply_patch ⟨k, pre ++ xs⟩ (diffStmts pre.length xs ys) = ⟨k, pre ++ ys⟩ := by
  induction xs with
  | nil =>
    intro ys pre k
    have := diff_apply_nil_left ys pre k
    rw [List.append_nil]
    simpa only [diffStmts] using this
  | cons x xs ih =>
    intro ys pre k
    cases ys with
    | nil =>
      have := diff_apply_nil_right (x :: xs) pre k
      rw [List.append_nil]
      exact this
    | cons y ys =>
      by_cases hxy : x = y
      · subst hxy
        simp only [diffStmts, if_pos rfl]
        have := ih ys (pre ++ [x]) k
        rw [List.length_append, List.length_singleton, List.append_assoc,
          List.singleton_append, List.append_assoc, List.singleton_append] at this
        exact this
      · simp only [diffStmts, if_neg hxy, apply_patch, List.foldl_cons]
        have hstep : applyOp ⟨k, pre ++ x :: xs⟩ (PatchOp.replaceStmt pre.length y)
            = (⟨k, pre ++ y :: xs⟩ : PolicyDoc) := by
          simp only [applyOp]
          rw [set_at_length]
        rw [hstep]
        have := ih ys (pre ++ [y]) k
        rw [List.length_append, List.length_singleton, List.append_assoc,
          List.singleton_append, List.append_assoc, List.singleton_append] at this
        exact this

theorem make_patch_round_trip (a b : PolicyDoc) : apply_patch a (make_patch a b) = b := by
  cases a with
  | mk ak ap =>
    cases b with
    | mk bk bp =>
      unfold make_patch apply_patch
      rw [List.foldl_append]
      have hkey : List.foldl applyOp ⟨ak, ap⟩
          (if (⟨ak, ap⟩ : PolicyDoc).key = (⟨bk, bp⟩ : PolicyDoc).key then []
           else [PatchOp.setKey (⟨bk, bp⟩ : PolicyDoc).key]) = (⟨bk, ap⟩ : PolicyDoc) := by
        by_cases hk : ak = bk
        · subst hk
          rw [if_pos rfl]
          rfl
        · rw [if_neg hk]
          rfl
      rw [hkey]
      exact diff_apply ap bp [] bk

theorem diffStmts_eq_nil (xs : List Stmt) : ∀ (ys : List Stmt) (i : Nat),
    diffStmts i xs ys = [] ↔ xs = ys := by
  induction xs with
  | nil =>
    intro ys i
    cases ys with
    | nil => simp [diffStmts, addStmtsFrom]
    | cons y ys => simp [diffStmts, addStmtsFrom]
  | cons x xs ih =>
    intro ys i
    cases ys with
    | nil => simp [diffStmts]
    | cons y ys =>
      by_cases hxy : x = y
      · subst hxy
        simp only [diffStmts, if_pos rfl, List.cons.injEq, true_and]
        exact ih ys (i + 1)
      · simp [diffStmts, hxy]

theorem make_patch_eq_nil_iff (a b : PolicyDoc) : make_patch a b = [] ↔ a = b := by
  cases a with
  | mk ak ap =>
    cases b with
    | mk bk bp =>
      unfold make_patch
      by_cases hk : ak = bk
      · subst hk
        rw [if_pos rfl, List.nil_append, diffStmts_eq_nil ap bp 0]
        constructor
        · intro h
          rw [h]
        · intro h
          cases h
          rfl
      · rw [if_neg hk]
        constructor
        · intro h
          simp at h
        · intro h
          cases h
          exact absurd rfl hk

theorem generate_patches_ok (o m : PolicyDoc) :
    generate_patches o m
      = .ok ⟨make_patch o m, apply_patch o (make_patch o m), make_patch m o⟩ := by
  have hc1 : make_patch m (apply_patch o (make_patch o m)) = [] := by
    rw [make_patch_round_trip]
    exact (make_patch_eq_nil_iff m m).mpr rfl
  have hc2 : make_patch o (apply_patch m (make_patch m o)) = [] := by
    rw [make_patch_round_trip]
    exact (make_patch_eq_nil_iff o o).mpr rfl
  unfold generate_patches
  rw [if_neg (by simp [hc1]), if_neg (by simp [hc2])]

/-- C1: for every (original, modified) pair run through
`generate_patches`, handing back artifacts implies that both dry-run
round-trip checks passed, that applying the forward patch to the
original yields exactly the modified policy (which is also the persisted
post-patch snapshot), and that applying the reverse patch to the
modified policy yields exactly the original; the artifacts are the
forward patch, the post-patch snapshot and the reverse patch. -/
theorem c1_round_trip (original modified : PolicyDoc) (arts : PatchArtifacts)
    (h : generate_patches original modified = .ok arts) :
    arts.patch = make_patch original modified
    ∧ arts.reversePatch = make_patch modified original
    ∧ apply_patch original arts.patch = modified
    ∧ apply_patch modified arts.reversePatch = original
    ∧ arts.patched = modified
    ∧ make_patch modified (apply_patch original arts.patch) = []
    ∧ make_patch original (apply_patch modified arts.reversePatch) = [] := by
  have hfwd : apply_patch original (make_patch original modified) = modified :=
    make_patch_round_trip original modified
  have hrev : apply_patch modified (make_patch modified original) = original :=
    make_patch_round_trip modified original
  have hc1 : make_patch modified (apply_patch original (make_patch original modified)) = [] := by
    rw [hfwd]
    exact (make_patch_eq_nil_iff modified modified).mpr rfl
  have hc2 : make_patch original (apply_patch modified (make_patch modified original)) = [] := by
    rw [hrev]
    exact (make_patch_eq_nil_iff original original).mpr rfl
  unfold generate_patches at h
  rw [if_neg (by simp [hc1]), if_neg (by simp [hc2])] at h
  cases h
  exact ⟨rfl, rfl, hfwd, hrev, hfwd, hc1, hc2⟩

/-- Witness for C1 at a concrete original/modified pair (one invalid
action stripped). -/
theorem c1_round_trip_witness :
    apply_patch ⟨"r", [{ resources := ["p"], actions := ["a", "b"], effect := "allow" }]⟩
        (make_patch ⟨"r", [{ resources := ["p"], actions := ["a", "b"], effect := "allow" }]⟩
          ⟨"r", [{ resources := ["p"], actions := ["a"], effect := "allow" }]⟩)
      = ⟨"r", [{ resources := ["p"], actions := ["a"], effect := "allow" }]⟩
    ∧ apply_patch ⟨"r", [{ resources := ["p"], actions := ["a"], effect := "allow" }]⟩
        (make_patch ⟨"r", [{ resources := ["p"], actions := ["a"], effect := "allow" }]⟩
          ⟨"r", [{ resources := ["p"], actions := ["a", "b"], effect := "allow" }]⟩)
      = ⟨"r", [{ resources := ["p"], actions := ["a", "b"], effect := "allow" }]⟩ := by
  have h := c1_round_trip
    ⟨"r", [{ resources := ["p"], actions := ["a", "b"], effect := "allow" }]⟩
    ⟨"r", [{ resources := ["p"], actions := ["a"], effect := "allow" }]⟩ _
    (generate_patches_ok
      ⟨"r", [{ resources := ["p"], actions := ["a", "b"], effect := "allow" }]⟩
      ⟨"r", [{ resources := ["p"], actions := ["a"], effect := "allow" }]⟩)
  exact ⟨h.2.2.1, h.2.2.2.1⟩


/-- C2 counterexample: two statements of one policy share the identical
resource list `["proj/a"]`, so export assigns them colliding resource
hashes; fixing a record addressed at that hash nevertheless succeeds —
no error is raised, contradicting the claim that the collision is fatal
for the role. -/
theorem c2_counterexample :
    set_policy_hash ⟨"r", [{ resources := ["proj/a"], actions := ["x", "y"], effect := "allow" }, { resources := ["proj/a"], actions := ["x", "z"], effect := "deny" }]⟩
      = .ok ⟨"r", [{ resources := ["proj/a"], actions := ["x", "y"], effect := "allow" }, { resources := ["proj/a"], actions := ["x", "z"], effect := "deny" }], ["proj/a", "proj/a"]⟩
    ∧ ¬(["proj/a", "proj/a"] : List String).Nodup
    ∧ fix_invalid_policies
        [⟨"r", [{ resources := ["proj/a"], actions := ["x", "y"], effect := "allow" }, { resources := ["proj/a"], actions := ["x", "z"], effect := "deny" }], ["proj/a", "proj/a"]⟩]
        [("r", [{ resources := ["proj/a"], actions := ["z"] }])]
      = .ok ⟨[], ["r"], [("r", ⟨[], ⟨"r", [{ resources := ["proj/a"], actions := ["x", "y"], effect := "allow" }, { resources := ["proj/a"], actions := ["x", "z"], effect := "deny" }]⟩, []⟩)]⟩ :=
  ⟨rfl, by decide, rfl⟩

/-- C2 amended: on a resource-hash collision the fix operation raises no
error and does not treat the collision as fatal: `list.index` silently
resolves the lookup to the first statement carrying the colliding hash,
strips the record's invalid actions from that first statement only, and
leaves the later colliding statement untouched. -/
theorem c2_amended_collision_resolved_silently (st₁ st₂ : Stmt) (irec : InvalidRec)
    (h : String) (hh : create_resource_hash irec.resources irec.notResources = .ok h) :
    pyIndex h [h, h] = some 0
    ∧ fixApplyRec [st₁, st₂] [h, h] [] irec
      = .ok ([{ st₁ with actions := st₁.actions.filter (fun a => a ∉ irec.actions) }, st₂],
          if st₁.actions.filter (fun a => a ∉ irec.actions) = []
          then [{ st₁ with actions := st₁.actions.filter (fun a => a ∉ irec.actions) }]
          else []) := by
  have hidx : pyIndex h [h, h] = some 0 := by simp [pyIndex]
  refine ⟨hidx, ?_⟩
  unfold fixApplyRec
  simp only [hh, hidx, List.getElem?_cons_zero, List.set_cons_zero, List.nil_append]

/-- Witness for the amended C2: a concrete collision where the first
statement is edited (here: unchanged, because the invalid action sits in
the second statement) and no error occurs. -/
theorem c2_amended_witness :
    pyIndex "proj/a" ["proj/a", "proj/a"] = some 0
    ∧ fixApplyRec
        [{ resources := ["proj/a"], actions := ["x", "y"], effect := "allow" }, { resources := ["proj/a"], actions := ["x", "z"], effect := "deny" }]
        ["proj/a", "proj/a"] [] { resources := ["proj/a"], actions := ["z"] }
      = .ok ([{ resources := ["proj/a"], actions := ["x", "y"], effect := "allow" }, { resources := ["proj/a"], actions := ["x", "z"], effect := "deny" }], []) :=
  c2_amended_collision_resolved_silently
    { resources := ["proj/a"], actions := ["x", "y"], effect := "allow" }
    { resources := ["proj/a"], actions := ["x", "z"], effect := "deny" }
    { resources := ["proj/a"], actions := ["z"] } "proj/a" rfl

theorem fix_keys_sub (policies : List HashedPolicy) :
    ∀ (invalid : List (String × List InvalidRec)) (res : FixResult),
      fix_invalid_policies policies invalid = .ok res →
      (∀ x ∈ res.skipped, x ∈ invalid.map Prod.fst)
      ∧ (∀ x ∈ res.fixed, x ∈ invalid.map Prod.fst)
      ∧ (∀ x arts, (x, arts) ∈ res.artifacts → x ∈ invalid.map Prod.fst) := by
  intro invalid
  induction invalid with
  | nil =>
    intro res hok
    simp only [fix_invalid_policies] at hok
    cases hok
    exact ⟨by simp, by simp, by simp [FixResult.artifacts]⟩
  | cons p rest ih =>
    obtain ⟨k, recs⟩ := p
    intro res hok
    simp only [fix_invalid_policies] at hok
    cases h1 : fix_one_policy policies k recs with
    | error e => rw [h1] at hok; simp at hok
    | ok out =>
      rw [h1] at hok
      cases h2 : fix_invalid_policies policies rest with
      | error e => rw [h2] at hok; simp at hok
      | ok res' =>
        rw [h2] at hok
        have ihr := ih res' h2
        cases out with
        | skipped =>
          cases hok
          simp only [List.map_cons]
          refine ⟨?_, ?_, ?_⟩
          · intro x hx
            rcases List.mem_cons.mp hx with hx | hx
            · subst hx; exact List.mem_cons_self _ _
            · exact List.mem_cons_of_mem _ (ihr.1 x hx)
          · intro x hx
            exact List.mem_cons_of_mem _ (ihr.2.1 x hx)
          · intro x arts hx
            exact List.mem_cons_of_mem _ (ihr.2.2 x arts hx)
        | fixed arts0 =>
          cases hok
          simp only [List.map_cons]
          refine ⟨?_, ?_, ?_⟩
          · intro x hx
            exact List.mem_cons_of_mem _ (ihr.1 x hx)
          · intro x hx
            rcases List.mem_cons.mp hx with hx | hx
            · subst hx; exact List.mem_cons_self _ _
            · exact List.mem_cons_of_mem _ (ihr.2.1 x hx)
          · intro x arts hx
            rcases List.mem_cons.mp hx with hx | hx
            · rw [Prod.mk.injEq] at hx
              rw [hx.1]
              exact List.mem_cons_self _ _
            · exact List.mem_cons_of_mem _ (ihr.2.2 x arts hx)

theorem c6_batch (policies : List HashedPolicy) :
    ∀ (invalid : List (String × List InvalidRec)) (res : FixResult) (k : String)
      (recs : List InvalidRec),
      fix_invalid_policies policies invalid = .ok res →
      (k, recs) ∈ invalid →
      (invalid.map Prod.fst).Nodup →
      fix_one_policy policies k recs = .ok FixOutcome.skipped →
      k ∈ res.skipped ∧ k ∉ res.fixed ∧ ∀ arts, (k, arts) ∉ res.artifacts := by
  intro invalid
  induction invalid with
  | nil =>
    intro res k recs _ hmem
    exact absurd hmem (List.not_mem_nil _)
  | cons p rest ih =>
    obtain ⟨k', recs'⟩ := p
    intro res k recs hok hmem hnd hone
    simp only [fix_invalid_policies] at hok
    cases h1 : fix_one_policy policies k' recs' with
    | error e => rw [h1] at hok; simp at hok
    | ok out =>
      rw [h1] at hok
      cases h2 : fix_invalid_policies policies rest with
      | error e => rw [h2] at hok; simp at hok
      | ok res' =>
        rw [h2] at hok
        simp only [List.map_cons, List.nodup_cons] at hnd
        have hsub := fix_keys_sub policies rest res' h2
        rcases List.mem_cons.mp hmem with hm | hm
        · rw [Prod.mk.injEq] at hm
          obtain ⟨hk, hr⟩ := hm
          subst hk
          subst hr
          rw [hone] at h1
          cases h1
          cases hok
          refine ⟨List.mem_cons_self _ _, ?_, ?_⟩
          · intro hx
            exact hnd.1 (hsub.2.1 k hx)
          · intro arts hx
            exact hnd.1 (hsub.2.2 k arts hx)
        · have hkne : k ≠ k' := by
            intro he
            subst he
            exact hnd.1 (List.mem_map_of_mem Prod.fst hm)
          have ihr := ih res' k recs h2 hm hnd.2 hone
          cases out with
          | skipped =>
            cases hok
            refine ⟨List.mem_cons_of_mem _ ihr.1, ihr.2.1, ihr.2.2⟩
          | fixed arts0 =>
            cases hok
            refine ⟨ihr.1, ?_, ?_⟩
            · intro hx
              rcases List.mem_cons.mp hx with hx | hx
              · exact hkne hx
              · exact ihr.2.1 hx
            · intro arts hx
              rcases List.mem_cons.mp hx with hx | hx
              · rw [Prod.mk.injEq] at hx
                exact hkne hx.1
              · exact ihr.2.2 arts hx

/-- C6: when stripping the invalid actions leaves a policy with zero
statements, the fix run skips that role: `fix_one_policy` returns the
`skipped` outcome without generating patches, and in the batch result the
role key is reported under `skipped`, absent from `fixed`, and owns no
persisted patch artifacts. -/
theorem c6_empty_policy_skipped (policies : List HashedPolicy)
    (invalid : List (String × List InvalidRec)) (res : FixResult) (k : String)
    (recs : List InvalidRec) (i : Nat) (orig : HashedPolicy)
    (hfind : pyFindIdx (fun p => p.key = k) policies = some i)
    (hval : policies[i]? = some orig)
    (hstrip : stripPolicy orig.policy orig.hash recs = .ok [])
    (hok : fix_invalid_policies policies invalid = .ok res)
    (hmem : (k, recs) ∈ invalid)
    (hnd : (invalid.map Prod.fst).Nodup) :
    fix_one_policy policies k recs = .ok FixOutcome.skipped
    ∧ k ∈ res.skipped ∧ k ∉ res.fixed ∧ ∀ arts, (k, arts) ∉ res.artifacts := by
  have hone : fix_one_policy policies k recs = .ok FixOutcome.skipped := by
    unfold fix_one_policy
    simp only [hfind, hval, hstrip]
    simp
  exact ⟨hone, c6_batch policies invalid res k recs hok hmem hnd hone⟩

/-- Witness for C6: a role whose single statement loses all its actions
is skipped and owns no artifacts. -/
theorem c6_witness :
    fix_one_policy
        [⟨"r", [{ resources := ["proj/a"], actions := ["z"], effect := "allow" }], ["proj/a"]⟩]
        "r" [{ resources := ["proj/a"], actions := ["z"] }]
      = .ok FixOutcome.skipped
    ∧ "r" ∈ FixResult.skipped ⟨["r"], [], []⟩
    ∧ "r" ∉ FixResult.fixed ⟨["r"], [], []⟩
    ∧ ∀ arts, ("r", arts) ∉ FixResult.artifacts ⟨["r"], [], []⟩ :=
  c6_empty_policy_skipped
    [⟨"r", [{ resources := ["proj/a"], actions := ["z"], effect := "allow" }], ["proj/a"]⟩]
    [("r", [{ resources := ["proj/a"], actions := ["z"] }])]
    ⟨["r"], [], []⟩ "r" [{ resources := ["proj/a"], actions := ["z"] }] 0
    ⟨"r", [{ resources := ["proj/a"], actions := ["z"], effect := "allow" }], ["proj/a"]⟩
    rfl rfl rfl rfl (List.mem_singleton.mpr rfl) (by decide)

theorem brMatch_nil (w : List Char) (b : Bool) : brMatch [] w b = some none := rfl

theorem brMatch_endA_eval (v : List Char) (b : Bool) :
    brMatch [RTok.endA] v b = if v = [] then some none else none := by
  by_cases h : v = [] <;> simp [brMatch, h]

theorem brMatch_endA_iff (w : List Char) (b : Bool) :
    brMatch [RTok.endA] w b = some none ↔ w = [] := by
  rw [brMatch_endA_eval]
  by_cases h : w = [] <;> simp [h]

theorem descRange_cons (n : Nat) : descRange n = n :: (List.range n).reverse := by
  simp [descRange, List.range_succ]

theorem mem_descRange {k n : Nat} : k ∈ descRange n ↔ k ≤ n := by
  simp only [descRange, List.mem_reverse, List.mem_range]
  omega

theorem takeWhile_lt_of_mem {p : Char → Bool} {w : List Char} {x : Char}
    (hx : x ∈ w) (hpx : p x = false) : (w.takeWhile p).length < w.length := by
  have hle : (w.takeWhile p).length ≤ w.length := (List.takeWhile_sublist p).length_le
  rcases Nat.lt_or_ge (w.takeWhile p).length w.length with h | h
  · exact h
  · exfalso
    have heq : w.takeWhile p = w := (List.takeWhile_sublist p).eq_of_length_le h
    have := List.takeWhile_eq_self_iff.mp heq x hx
    rw [hpx] at this
    cases this

theorem maxRun_eq_length_iff (w : List Char) : maxRun w = w.length ↔ ':' ∉ w := by
  unfold maxRun
  constructor
  · intro h hmem
    have := takeWhile_lt_of_mem (p := fun c => decide (c ≠ ':')) hmem (by simp)
    omega
  · intro hmem
    have heq : w.takeWhile (fun c => decide (c ≠ ':')) = w := by
      refine List.takeWhile_eq_self_iff.mpr (fun x hx => ?_)
      simp only [decide_eq_true_eq]
      exact fun he => hmem (he ▸ hx)
    rw [heq]

theorem maxNlRun_eq_length_iff (w : List Char) : maxNlRun w = w.length ↔ '\n' ∉ w := by
  unfold maxNlRun
  constructor
  · intro h hmem
    have := takeWhile_lt_of_mem (p := fun c => decide (c ≠ '\n')) hmem (by simp)
    omega
  · intro hmem
    have heq : w.takeWhile (fun c => decide (c ≠ '\n')) = w := by
      refine List.takeWhile_eq_self_iff.mpr (fun x hx => ?_)
      simp only [decide_eq_true_eq]
      exact fun he => hmem (he ▸ hx)
    rw [heq]

/-- The compiled `.*` of a literal `*`, up to the pattern's trailing
`$`, matches exactly the newline-free strings — including strings
containing the segment separator `:`. -/
theorem brMatch_star_iff (w : List Char) :
    brMatch [RTok.star, RTok.endA] w true = some none ↔ '\n' ∉ w := by
  rw [show brMatch [RTok.star, RTok.endA] w true
      = (descRange (maxNlRun w)).findSome?
          (fun k => brMatch [RTok.endA] (w.drop k) (true && (k == 0))) from rfl]
  constructor
  · intro h hmem
    have hlt : maxNlRun w < w.length := by
      unfold maxNlRun
      exact takeWhile_lt_of_mem hmem (by simp)
    have hall : ∀ k ∈ descRange (maxNlRun w),
        brMatch [RTok.endA] (w.drop k) (true && (k == 0)) = none := by
      intro k hk
      rw [mem_descRange] at hk
      have hne : w.drop k ≠ [] := by
        rw [ne_eq, List.drop_eq_nil_iff]
        omega
      rw [brMatch_endA_eval, if_neg hne]
    rw [List.findSome?_eq_none_iff.mpr hall] at h
    cases h
  · intro hmem
    have hlen : maxNlRun w = w.length := (maxNlRun_eq_length_iff w).mpr hmem
    rw [hlen, descRange_cons, List.findSome?_cons]
    rw [show brMatch [RTok.endA] (w.drop w.length) (true && (w.length == 0)) = some none by
      rw [List.drop_length, brMatch_endA_eval, if_pos rfl]]

/-- The compiled `[^:]+` of a non-target placeholder, up to the
pattern's trailing `$`, matches exactly the non-empty colon-free strings
(same-segment, non-capturing). -/
theorem brMatch_seg_iff (w : List Char) :
    brMatch [RTok.seg, RTok.endA] w true = some none ↔ w ≠ [] ∧ ':' ∉ w := by
  rw [show brMatch [RTok.seg, RTok.endA] w true
      = (descRange (maxRun w)).findSome? (fun k =>
          if k = 0 then none else brMatch [RTok.endA] (w.drop k) false) from rfl]
  constructor
  · intro h
    obtain ⟨k, hk, hfk⟩ := List.exists_of_findSome?_eq_some h
    rw [mem_descRange] at hk
    by_cases hk0 : k = 0
    · rw [if_pos hk0] at hfk
      cases hfk
    · rw [if_neg hk0] at hfk
      have hdrop : w.length ≤ k := by
        by_cases hd : w.drop k = []
        · exact List.drop_eq_nil_iff.mp hd
        · rw [brMatch_endA_eval, if_neg hd] at hfk
          cases hfk
      have hmax : maxRun w ≤ w.length := (List.takeWhile_sublist _).length_le
      have hlen : maxRun w = w.length := by omega
      refine ⟨?_, (maxRun_eq_length_iff w).mp hlen⟩
      intro hnil
      subst hnil
      have hz : maxRun ([] : List Char) = 0 := rfl
      omega
  · rintro ⟨hne, hmem⟩
    have hlen : maxRun w = w.length := (maxRun_eq_length_iff w).mpr hmem
    have hpos : w.length ≠ 0 := by
      intro h0
      exact hne (List.length_eq_zero.mp h0)
    rw [hlen, descRange_cons, List.findSome?_cons]
    rw [if_neg hpos]
    rw [show brMatch [RTok.endA] (w.drop w.length) false = some none by
      rw [List.drop_length, brMatch_endA_eval, if_pos rfl]]

/-- A correctly-escaped literal token consumes exactly its own
character. -/
theorem brMatch_lit_self (c : Char) (ts : List RTok) (w : List Char) (b : Bool) :
    brMatch (RTok.lit c :: ts) (c :: w) b = brMatch ts w false := by
  simp [brMatch]

/-- C4 counterexample: for the template resource
`proj/*:env/$\x7broleAttribute/e\x7d` the synthesizer emits one pattern
for key `e`; that pattern matches the resource `proj/a:b:env/prod`, where
the literal `*`'s compiled wildcard necessarily spans `a:b` — text
containing the segment separator `:` — and extraction indeed captures
`prod`.  The compiled wildcard is therefore not same-segment. -/
theorem c4_counterexample :
    discover_attribute_patterns
        [{ resources := ["proj/*:env/${roleAttribute/e}"], actions := ["x"], effect := "allow" }]
      = [("e", [tmTokenize "e" "proj/*:env/${roleAttribute/e}"])]
    ∧ reMatchPat (tmTokenize "e" "proj/*:env/${roleAttribute/e}") "proj/a:b:env/prod".toList
      = MatchRes.captured "prod".toList
    ∧ extract_from_role_with_patterns
        [{ resources := ["proj/a:b:env/prod"], actions := ["x"], effect := "allow" }]
        (discover_attribute_patterns
          [{ resources := ["proj/*:env/${roleAttribute/e}"], actions := ["x"], effect := "allow" }])
      = [("e", ["prod"])] :=
  ⟨by decide, by decide, by decide⟩

/-- C4 amended: the synthesizer compiles a literal `*` into the
any-character wildcard `.*`, which is not segment-bounded — it matches
any newline-free run, including runs containing `:` — while non-target
placeholders compile to the same-segment non-capturing `[^:]+` and the
pattern is anchored by its trailing `$` token; the remaining characters
are escaped to self-matching literals only outside `.`, `^`, `$`, `+`,
`?`, `|`: the sequential escape loop escapes the backslash after those
six, double-escaping them, so that a template `.` compiles to a literal
backslash followed by any character (and no longer matches itself), a
template `+` to one-or-more literal backslashes, and a template `|` to a
literal backslash ending an alternation branch. -/
theorem c4_amended_star_crosses_segments :
    (∀ (f : Nat) (target : String) (rest : List Char),
        tmTokenizeF (f + 1) target ('*' :: rest) = consTok RTok.star (tmTokenizeF f target rest))
    ∧ (∀ w : List Char, brMatch [RTok.star, RTok.endA] w true = some none ↔ '\n' ∉ w)
    ∧ brMatch [RTok.star, RTok.endA] "a:b".toList true = some none
    ∧ (∀ w : List Char, brMatch [RTok.seg, RTok.endA] w true = some none ↔ w ≠ [] ∧ ':' ∉ w)
    ∧ (∀ (w : List Char) (b : Bool), brMatch [RTok.endA] w b = some none ↔ w = [])
    ∧ (∀ (c : Char) (ts : List RTok) (w : List Char) (b : Bool),
        brMatch (RTok.lit c :: ts) (c :: w) b = brMatch ts w false)
    ∧ (∀ bs : RePat, escChar '.' bs = consTok (RTok.lit '\\') (consTok RTok.dot bs))
    ∧ (∀ bs : RePat, escChar '+' bs = consTok RTok.bslashPlus bs)
    ∧ (∀ (f : Nat) (target : String) (rest : List Char),
        tmTokenizeF (f + 1) target ('|' :: rest) = [RTok.lit '\\'] :: tmTokenizeF f target rest)
    ∧ tmTokenize "k" "a|b" = [[RTok.startA, RTok.lit 'a', RTok.lit '\\'], [RTok.lit 'b', RTok.endA]]
    ∧ reMatchPat (tmTokenize "k" "a.b") "a.b".toList = MatchRes.noMatch
    ∧ reMatchPat (tmTokenize "k" "a.b") ['a', '\\', 'z', 'b'] = MatchRes.noGroup
    ∧ reMatchPat (tmTokenize "k" "a|b") ['a', '\\', 'x'] = MatchRes.noGroup := by
  refine ⟨fun f target rest => rfl, brMatch_star_iff, by decide, brMatch_seg_iff,
    brMatch_endA_iff, brMatch_lit_self, fun bs => by simp [escChar], fun bs => by simp [escChar],
    fun f target rest => rfl, by decide, by decide, by decide, by decide⟩

theorem valueOk_spec (v : List Char) (h : valueOk v = true) :
    v ≠ [] ∧ v ≠ ['*'] ∧ hasInfix ['$', '{'] v = false := by
  simp only [valueOk, Bool.and_eq_true, decide_eq_true_eq, Bool.not_eq_true'] at h
  exact ⟨h.1.1, h.1.2, h.2⟩

theorem setInsert_ok {vs : List String} {v0 : String}
    (hvs : ∀ v ∈ vs, goodValue v) (hv : goodValue v0) :
    ∀ v ∈ setInsert vs v0, goodValue v := by
  intro v hv'
  unfold setInsert at hv'
  by_cases hmem : v0 ∈ vs
  · rw [if_pos hmem] at hv'
    exact hvs v hv'
  · rw [if_neg hmem] at hv'
    rcases List.mem_append.mp hv' with h | h
    · exact hvs v h
    · rw [List.mem_singleton] at h
      subst h
      exact hv

theorem extractAddValue_ok (k : String) (v0 : String) (hv : goodValue v0) :
    ∀ m, extOk m → extOk (extractAddValue m k v0) := by
  intro m
  induction m with
  | nil =>
    intro _ k' vs hmem
    simp [extractAddValue] at hmem
  | cons e rest ih =>
    obtain ⟨ke, ve⟩ := e
    intro hm k' vs hmem
    simp only [extractAddValue] at hmem
    by_cases hk : ke = k
    · rw [if_pos hk] at hmem
      rcases List.mem_cons.mp hmem with h | h
      · rw [Prod.mk.injEq] at h
        obtain ⟨h1, h2⟩ := h
        subst h2
        exact setInsert_ok (hm ke ve (List.mem_cons_self _ _)) hv
      · exact hm k' vs (List.mem_cons_of_mem _ h)
    · rw [if_neg hk] at hmem
      rcases List.mem_cons.mp hmem with h | h
      · exact hm k' vs (h ▸ List.mem_cons_self _ _)
      · exact ih (fun a b hab => hm a b (List.mem_cons_of_mem _ hab)) k' vs h

theorem extractResource_ok (r : List Char) :
    ∀ (ps : List (String × List RePat)) (m), extOk m → extOk (extractResource ps m r) := by
  intro ps
  induction ps with
  | nil => intro m hm; exact hm
  | cons p ps ih =>
    intro m hm
    have hstep : extOk (match tryPatterns p.snd r with
        | some (some v) => if valueOk v then extractAddValue m p.fst (String.mk v) else m
        | some none => m
        | none => m) := by
      split
      · next v _ =>
        by_cases hok : valueOk v = true
        · rw [if_pos hok]
          have hgv : goodValue (String.mk v) := by
            have := valueOk_spec v hok
            exact ⟨this.1, this.2.1, this.2.2⟩
          exact extractAddValue_ok p.fst (String.mk v) hgv m hm
        · rw [if_neg hok]
          exact hm
      · exact hm
      · exact hm
    have : extractResource (p :: ps) m r
        = extractResource ps (match tryPatterns p.snd r with
            | some (some v) => if valueOk v then extractAddValue m p.fst (String.mk v) else m
            | some none => m
            | none => m) r := by
      simp only [extractResource, List.foldl_cons]
    rw [this]
    exact ih _ hstep

theorem extractStmtFold_ok (pats : List (String × List RePat)) :
    ∀ (rs : List String) (m), extOk m →
      extOk (rs.foldl (fun vals r => extractResource pats vals r.toList) m) := by
  intro rs
  induction rs with
  | nil => intro m hm; exact hm
  | cons r rs ih =>
    intro m hm
    rw [List.foldl_cons]
    exact ih _ (extractResource_ok r.toList pats m hm)

theorem extractRoleFold_ok (pats : List (String × List RePat)) :
    ∀ (ss : List Stmt) (m), extOk m →
      extOk (ss.foldl (fun vals st =>
        (st.resources ++ st.notResources).foldl
          (fun vals r => extractResource pats vals r.toList) vals) m) := by
  intro ss
  induction ss with
  | nil => intro m hm; exact hm
  | cons st ss ih =>
    intro m hm
    rw [List.foldl_cons]
    exact ih _ (extractStmtFold_ok pats (st.resources ++ st.notResources) m hm)

theorem extract_init_ok (pats : List (String × List RePat)) :
    extOk (pats.map (fun kp => (kp.fst, ([] : List String)))) := by
  intro k vs hmem v hv
  rcases List.mem_map.mp hmem with ⟨kp, _, heq⟩
  rw [Prod.mk.injEq] at heq
  rw [← heq.2] at hv
  cases hv

theorem tryPatterns_first (p : RePat) (ps : List RePat) (r v : List Char)
    (h : reMatchPat p r = MatchRes.captured v) : tryPatterns (p :: ps) r = some (some v) := by
  simp [tryPatterns, h]

theorem tryPatterns_break (p : RePat) (ps : List RePat) (r : List Char)
    (h : reMatchPat p r = MatchRes.groupNone) : tryPatterns (p :: ps) r = some none := by
  simp [tryPatterns, h]

/-- C7: every value the extractor returns is non-empty, is not the
literal wildcard `*`, and contains no unresolved placeholder text; keys
whose value set stayed empty are dropped from the output; and for a
(resource, key) pair the first pattern whose match yields a capture
determines the outcome — the remaining patterns are never consulted,
also when the captured `group(1)` is the falsy `None` (match stops with
no value recorded). -/
theorem c7_extractor_value_hygiene :
    (∀ (role : List Stmt) (pats : List (String × List RePat)) (k : String)
        (vs : List String), (k, vs) ∈ extract_from_role_with_patterns role pats →
        vs ≠ [] ∧ ∀ v ∈ vs, goodValue v)
    ∧ (∀ (p : RePat) (ps ps' : List RePat) (r v : List Char),
        reMatchPat p r = MatchRes.captured v →
          tryPatterns (p :: ps) r = some (some v)
          ∧ tryPatterns (p :: ps) r = tryPatterns (p :: ps') r)
    ∧ (∀ (p : RePat) (ps : List RePat) (r : List Char),
        reMatchPat p r = MatchRes.groupNone → tryPatterns (p :: ps) r = some none) := by
  refine ⟨?_, ?_, ?_⟩
  · intro role pats k vs hmem
    unfold extract_from_role_with_patterns at hmem
    rw [List.mem_filter] at hmem
    obtain ⟨hin, hne⟩ := hmem
    refine ⟨by simpa using hne, ?_⟩
    exact extractRoleFold_ok pats role _ (extract_init_ok pats) k vs hin
  · intro p ps ps' r v h
    rw [tryPatterns_first p ps r v h, tryPatterns_first p ps' r v h]
    exact ⟨rfl, rfl⟩
  · intro p ps r h
    exact tryPatterns_break p ps r h

/-- Witness for C7 at the concrete template and role of the counterexample
pipeline: the extracted value set for key `e` is non-empty and clean. -/
theorem c7_witness :
    (["prod"] : List String) ≠ [] ∧ ∀ v ∈ (["prod"] : List String), goodValue v :=
  c7_extractor_value_hygiene.1
    [{ resources := ["proj/a:b:env/prod"], actions := ["x"], effect := "allow" }]
    (discover_attribute_patterns
      [{ resources := ["proj/*:env/${roleAttribute/e}"], actions := ["x"], effect := "allow" }])
    "e" ["prod"] (by decide)

/-- C8: the composed instruction list opens with the
`addCustomRoles` instruction carrying the deduplicated sorted template
role keys (both callers pass a non-empty key list), even when no
attribute values were extracted; each following instruction is
`updateRoleAttribute` when the key already exists in the team's
`roleAttributes` and `addRoleAttribute` otherwise. -/
theorem c8_first_instruction_assigns_roles (trk : List String)
    (tav : List (String × List String)) (ex : List String) (h : trk ≠ []) :
    create_team_patch_instructions trk tav ex
      = TeamInstr.addCustomRoles (sortedDedup trk)
        :: tav.map (fun kv =>
          if kv.fst ∈ ex then TeamInstr.updateRoleAttribute kv.fst (pySort kv.snd)
          else TeamInstr.addRoleAttribute kv.fst (pySort kv.snd))
    ∧ (create_team_patch_instructions trk tav ex).head?
      = some (TeamInstr.addCustomRoles (sortedDedup trk))
    ∧ create_team_patch_instructions trk [] ex
      = [TeamInstr.addCustomRoles (sortedDedup trk)] := by
  refine ⟨?_, ?_, ?_⟩ <;> simp [create_team_patch_instructions, h]

/-- Witness for C8: one template key, one extracted attribute absent from
the team's existing bindings, one present. -/
theorem c8_witness :
    create_team_patch_instructions ["tmpl"] [("p", ["acme"]), ("q", ["x"])] ["q"]
      = TeamInstr.addCustomRoles (sortedDedup ["tmpl"])
        :: [("p", ["acme"]), ("q", ["x"])].map (fun kv =>
          if kv.fst ∈ (["q"] : List String) then TeamInstr.updateRoleAttribute kv.fst (pySort kv.snd)
          else TeamInstr.addRoleAttribute kv.fst (pySort kv.snd))
    ∧ (create_team_patch_instructions ["tmpl"] [("p", ["acme"]), ("q", ["x"])] ["q"]).head?
      = some (TeamInstr.addCustomRoles (sortedDedup ["tmpl"]))
    ∧ create_team_patch_instructions ["tmpl"] [] ["q"]
      = [TeamInstr.addCustomRoles (sortedDedup ["tmpl"])] :=
  c8_first_instruction_assigns_roles ["tmpl"] [("p", ["acme"]), ("q", ["x"])] ["q"] (by decide)

end LDKit
